import Mathlib

/-!
# Shallow embedding of `lru.go` (package `lru`, an LRU cache)

The Go cache couples a doubly linked list `Ll` (front = most recently used,
back = least recently used) with a map `Cache` from keys to `*list.Element`.
We embed the state as:

* the recency list `ll : List (Nat × K × V)` — front first; element pointers
  are modelled by the `Nat` node id, fresh ids being drawn from `nextId`;
* the map `cache : Option (List (K × Nat))` — an association list from key
  to node id with unique keys (Go map semantics); `none` models Go's
  `nil` map of a zero-value `Cache`;
* `maxEntries : Int` (a Go `int`, so it may be negative) and
  `onEvicted : Bool` (whether the `OnEvicted` callback field is non-nil).

Calls to the eviction callback are recorded as an explicit event list
`List (K × V)` returned by each mutating operation, in invocation order.
The visitor functions of `Foreach` / `RemoveForeach` are pure.
-/

set_option maxHeartbeats 1000000
set_option linter.unusedSectionVars false

namespace LRU

variable {K V : Type} [DecidableEq K]

/-- A list node, standing for a `*list.Element` whose `Value` is `*entry`:
the `Nat` component is the node identity (pointer), then key and value. -/
abbrev Node (K V : Type) : Type := Nat × K × V

/-- The `Cache` struct of `lru.go`. -/
structure Cache (K V : Type) where
  maxEntries : Int
  onEvicted : Bool
  ll : List (Node K V)
  cache : Option (List (K × Nat))
  nextId : Nat

/-- Go map read `c.Cache[key]`: first (and, with unique keys, only) binding. -/
def mapGet (m : List (K × Nat)) (key : K) : Option Nat :=
  match m with
  | [] => none
  | (k, i) :: rest => if k = key then some i else mapGet rest key

/-- Go map write `c.Cache[key] = ele`: replace the binding if present,
otherwise add it. -/
def mapSet (m : List (K × Nat)) (key : K) (i : Nat) : List (K × Nat) :=
  match m with
  | [] => [(key, i)]
  | (k, j) :: rest =>
    if k = key then (key, i) :: rest else (k, j) :: mapSet rest key i

/-- Go map delete `delete(c.Cache, key)`. -/
def mapDel (m : List (K × Nat)) (key : K) : List (K × Nat) :=
  match m with
  | [] => []
  | (k, j) :: rest => if k = key then rest else (k, j) :: mapDel rest key

/-- Find the list element with node id `i` (pointer dereference into `Ll`). -/
def findNode (l : List (Node K V)) (i : Nat) : Option (Node K V) :=
  match l with
  | [] => none
  | e :: rest => if e.1 = i then some e else findNode rest i

/-- Model of `c.Ll.Remove(e)`: unlink the node with id `i` from the list. -/
def eraseNode (l : List (Node K V)) (i : Nat) : List (Node K V) :=
  match l with
  | [] => []
  | e :: rest => if e.1 = i then rest else e :: eraseNode rest i

/-- Model of `c.Ll.MoveToFront(ele)`: relocate the node with id `i` to the front.
If no such node is in the list the list is unchanged. -/
def moveToFront (l : List (Node K V)) (i : Nat) : List (Node K V) :=
  match findNode l i with
  | some e => e :: eraseNode l i
  | none => l

/-- Model of `c.Ll.MoveToFront(ee)` followed by `ee.Value.(*entry).value = value`:
the relocated node keeps its key and receives the new value. -/
def moveToFrontSet (l : List (Node K V)) (i : Nat) (v : V) : List (Node K V) :=
  match findNode l i with
  | some e => (e.1, e.2.1, v) :: eraseNode l i
  | none => l

/-- Model of `New(maxEntries)`: empty list, empty (non-nil) map, nil callback. -/
def new (maxEntries : Int) : Cache K V :=
  { maxEntries := maxEntries
    onEvicted := false
    ll := []
    cache := some []
    nextId := 0 }

/-- Model of `(c *Cache) removeElement(e *list.Element)`: unlink `e` from `Ll`,
delete its key from the map, and invoke `OnEvicted` (recorded as an event)
if the callback is set. -/
def Cache.removeElement (c : Cache K V) (e : Node K V) :
    Cache K V × List (K × V) :=
  ({ c with
      ll := eraseNode c.ll e.1
      cache := c.cache.map fun m => mapDel m e.2.1 },
   if c.onEvicted then [(e.2.1, e.2.2)] else [])

/-- Model of `(c *Cache) RemoveOldest() Key`: remove the back node and return its key;
on an empty list (or nil map) return `nil` (`none`). The returned triple is
(returned key, new state, callback events). -/
def Cache.removeOldest (c : Cache K V) :
    Option K × Cache K V × List (K × V) :=
  match c.cache with
  | none => (none, c, [])
  | some _ =>
    match c.ll.getLast? with
    | some e =>
      let r := c.removeElement e
      (some e.2.1, r.1, r.2)
    | none => (none, c, [])

/-- Model of `(c *Cache) Add(key Key, value interface\x7b\x7d)`: lazily initialise a
nil map, update-and-move-to-front on a hit, otherwise push a fresh front
node, index it, and evict the oldest entry when the capacity is set and
exceeded. Returns (new state, callback events). -/
def Cache.add (c : Cache K V) (key : K) (value : V) :
    Cache K V × List (K × V) :=
  let c0 := if c.cache.isNone then { c with cache := some [], ll := [] } else c
  let m := c0.cache.getD []
  match mapGet m key with
  | some i => ({ c0 with ll := moveToFrontSet c0.ll i value }, [])
  | none =>
    let i := c0.nextId
    let c1 := { c0 with
                  ll := (i, key, value) :: c0.ll
                  cache := some (mapSet m key i)
                  nextId := i + 1 }
    if c1.maxEntries ≠ 0 ∧ (c1.ll.length : Int) > c1.maxEntries then
      let r := c1.removeOldest
      (r.2.1, r.2.2)
    else
      (c1, [])

/-- Model of `(c *Cache) Get(key Key) (value interface\x7b\x7d, ok bool)`: on a hit,
move the node to the front and return its value; on a miss (or nil map)
return `(nil, false)`, modelled as `none`. -/
def Cache.get (c : Cache K V) (key : K) : Option V × Cache K V :=
  match c.cache with
  | none => (none, c)
  | some m =>
    match mapGet m key with
    | some i =>
      match findNode c.ll i with
      | some e => (some e.2.2, { c with ll := moveToFront c.ll i })
      | none => (none, c)
    | none => (none, c)

/-- Model of `(c *Cache) Remove(key Key)`: remove the keyed entry if present. -/
def Cache.remove (c : Cache K V) (key : K) : Cache K V × List (K × V) :=
  match c.cache with
  | none => (c, [])
  | some m =>
    match mapGet m key with
    | some i =>
      match findNode c.ll i with
      | some e => c.removeElement e
      | none => (c, [])
    | none => (c, [])

/-- Model of `(c *Cache) Len() int`. -/
def Cache.len (c : Cache K V) : Nat :=
  match c.cache with
  | none => 0
  | some _ => c.ll.length

/-- The loop body of `Foreach`, traversing the back-to-front snapshot:
collect the visited (key, value) pairs, stopping after the first visit for
which `fn` returns `true`. -/
def visitList (fn : K → V → Bool) : List (Node K V) → List (K × V)
  | [] => []
  | e :: rest =>
    if fn e.2.1 e.2.2 then [(e.2.1, e.2.2)]
    else (e.2.1, e.2.2) :: visitList fn rest

/-- Model of `(c *Cache) Foreach(fn)`: visit entries from the back (oldest) to the
front (newest) until `fn` returns `true`. The cache is not mutated, so the
model returns only the trace of visited (key, value) pairs. -/
def Cache.foreach (c : Cache K V) (fn : K → V → Bool) : List (K × V) :=
  match c.cache with
  | none => []
  | some _ => visitList fn c.ll.reverse

/-- The loop of `RemoveForeach` over the back-to-front snapshot `todo`:
`fn` returns (stop, remove); the next position is remembered before the
current node is (possibly) removed, `stop` breaks before `remove` is
applied. Returns (new state, callback events in invocation order). -/
def removeForeachGo (fn : K → V → Bool × Bool) (c : Cache K V) :
    List (Node K V) → Cache K V × List (K × V)
  | [] => (c, [])
  | e :: rest =>
    let s := fn e.2.1 e.2.2
    if s.1 then (c, [])
    else if s.2 then
      let r := c.removeElement e
      let r2 := removeForeachGo fn r.1 rest
      (r2.1, r.2 ++ r2.2)
    else removeForeachGo fn c rest

/-- Model of `(c *Cache) RemoveForeach(fn)`: traverse oldest to newest, removing the
nodes flagged by `fn` via `removeElement`, stopping when `fn` says so. -/
def Cache.removeForeach (c : Cache K V) (fn : K → V → Bool × Bool) :
    Cache K V × List (K × V) :=
  match c.cache with
  | none => (c, [])
  | some _ => removeForeachGo fn c c.ll.reverse

/-! ## Basic lemmas about the node list and the key index -/

/-- The node ids occurring in a list, in order. -/
def idsOf (l : List (Node K V)) : List Nat := l.map Prod.fst

/-- The keys occurring in a node list, in order. -/
def keysOf (l : List (Node K V)) : List K := l.map fun e => e.2.1

theorem eraseNode_sublist (l : List (Node K V)) (i : Nat) :
    (eraseNode l i).Sublist l := by
  induction l with
  | nil => simp [eraseNode]
  | cons e rest ih =>
    by_cases h : e.1 = i
    · simp [eraseNode, h]
    · simpa [eraseNode, h] using ih.cons₂ e

theorem mem_of_mem_eraseNode {l : List (Node K V)} {i : Nat} {e : Node K V}
    (h : e ∈ eraseNode l i) : e ∈ l :=
  (eraseNode_sublist l i).mem h

theorem mem_eraseNode_iff {l : List (Node K V)} {i : Nat}
    (hn : (idsOf l).Nodup) (e : Node K V) :
    e ∈ eraseNode l i ↔ e ∈ l ∧ e.1 ≠ i := by
  induction l with
  | nil => simp [eraseNode]
  | cons a rest ih =>
    simp only [idsOf, List.map_cons, List.nodup_cons] at hn
    by_cases h : a.1 = i
    · subst h
      simp only [eraseNode, if_pos rfl]
      constructor
      · intro he
        refine ⟨List.mem_cons_of_mem _ he, ?_⟩
        intro hei
        exact hn.1 (List.mem_map.2 ⟨e, he, hei⟩)
      · rintro ⟨he, hne⟩
        rcases List.mem_cons.1 he with rfl | he
        · exact absurd rfl hne
        · exact he
    · simp only [eraseNode, if_neg h, List.mem_cons, ih hn.2]
      constructor
      · rintro (rfl | ⟨he, hne⟩)
        · exact ⟨Or.inl rfl, h⟩
        · exact ⟨Or.inr he, hne⟩
      · rintro ⟨rfl | he, hne⟩
        · exact Or.inl rfl
        · exact Or.inr ⟨he, hne⟩

theorem length_eraseNode_of_mem {l : List (Node K V)} {e : Node K V}
    (h : e ∈ l) : (eraseNode l e.1).length + 1 = l.length := by
  induction l with
  | nil => cases h
  | cons a rest ih =>
    by_cases ha : a.1 = e.1
    · simp [eraseNode, ha]
    · have he : e ∈ rest := by
        rcases List.mem_cons.1 h with rfl | h
        · exact absurd rfl ha
        · exact h
      simp [eraseNode, ha, ih he]

theorem findNode_eq_some {l : List (Node K V)} {i : Nat} {e : Node K V}
    (h : findNode l i = some e) : e ∈ l ∧ e.1 = i := by
  induction l with
  | nil => simp [findNode] at h
  | cons a rest ih =>
    by_cases ha : a.1 = i
    · simp only [findNode, if_pos ha, Option.some_inj] at h
      exact ⟨h ▸ List.mem_cons_self a rest, h ▸ ha⟩
    · simp only [findNode, if_neg ha] at h
      exact ⟨List.mem_cons_of_mem _ (ih h).1, (ih h).2⟩

theorem findNode_of_mem {l : List (Node K V)}
    (hn : (idsOf l).Nodup) {e : Node K V} (he : e ∈ l) :
    findNode l e.1 = some e := by
  induction l with
  | nil => cases he
  | cons a rest ih =>
    simp only [idsOf, List.map_cons, List.nodup_cons] at hn
    by_cases ha : a.1 = e.1
    · rcases List.mem_cons.1 he with rfl | he
      · simp [findNode]
      · exact absurd (List.mem_map.2 ⟨e, he, ha.symm⟩) hn.1
    · have he : e ∈ rest := by
        rcases List.mem_cons.1 he with rfl | he
        · exact absurd rfl ha
        · exact he
      simp [findNode, ha, ih hn.2 he]

theorem node_id_inj {l : List (Node K V)} (hn : (idsOf l).Nodup)
    {a b : Node K V} (ha : a ∈ l) (hb : b ∈ l) (h : a.1 = b.1) : a = b :=
  List.inj_on_of_nodup_map hn ha hb h

theorem node_key_inj {l : List (Node K V)} (hn : (keysOf l).Nodup)
    {a b : Node K V} (ha : a ∈ l) (hb : b ∈ l) (h : a.2.1 = b.2.1) : a = b :=
  List.inj_on_of_nodup_map hn ha hb h

theorem mapGet_eq_some_mem {m : List (K × Nat)} {key : K} {i : Nat}
    (h : mapGet m key = some i) : (key, i) ∈ m := by
  induction m with
  | nil => simp [mapGet] at h
  | cons p rest ih =>
    obtain ⟨k, j⟩ := p
    by_cases hp : k = key
    · simp only [mapGet, if_pos hp, Option.some_inj] at h
      subst hp
      exact h ▸ List.mem_cons_self _ rest
    · simp only [mapGet, if_neg hp] at h
      exact List.mem_cons_of_mem _ (ih h)

theorem mapGet_ne_none_of_mem {m : List (K × Nat)} {key : K} {i : Nat}
    (h : (key, i) ∈ m) : mapGet m key ≠ none := by
  induction m with
  | nil => cases h
  | cons p rest ih =>
    obtain ⟨k, j⟩ := p
    by_cases hp : k = key
    · simp [mapGet, hp]
    · rcases List.mem_cons.1 h with hh | h
      · exact absurd (congrArg Prod.fst hh).symm hp
      · simpa [mapGet, hp] using ih h

theorem mapGet_of_mem {m : List (K × Nat)} (hn : (m.map Prod.fst).Nodup)
    {key : K} {i : Nat} (h : (key, i) ∈ m) : mapGet m key = some i := by
  induction m with
  | nil => cases h
  | cons p rest ih =>
    obtain ⟨k, j⟩ := p
    simp only [List.map_cons, List.nodup_cons] at hn
    by_cases hp : k = key
    · subst hp
      rcases List.mem_cons.1 h with hh | h
      · have hij : i = j := by simpa using congrArg Prod.snd hh
        simp [mapGet, hij]
      · exact absurd (List.mem_map.2 ⟨(k, i), h, rfl⟩) hn.1
    · have h : (key, i) ∈ rest := by
        rcases List.mem_cons.1 h with hh | h
        · exact absurd (congrArg Prod.fst hh).symm hp
        · exact h
      simp [mapGet, hp, ih hn.2 h]

theorem mapSet_of_get_none {m : List (K × Nat)} {key : K}
    (h : mapGet m key = none) (i : Nat) : mapSet m key i = m ++ [(key, i)] := by
  induction m with
  | nil => simp [mapSet]
  | cons p rest ih =>
    by_cases hp : p.1 = key
    · simp [mapGet, hp] at h
    · simp only [mapGet, if_neg hp] at h
      simp [mapSet, hp, ih h]

theorem mapDel_sublist (m : List (K × Nat)) (key : K) :
    (mapDel m key).Sublist m := by
  induction m with
  | nil => simp [mapDel]
  | cons p rest ih =>
    by_cases hp : p.1 = key
    · simp [mapDel, hp]
    · simpa [mapDel, hp] using ih.cons₂ p

theorem mem_mapDel_iff {m : List (K × Nat)} (hn : (m.map Prod.fst).Nodup)
    {key : K} (p : K × Nat) :
    p ∈ mapDel m key ↔ p ∈ m ∧ p.1 ≠ key := by
  induction m with
  | nil => simp [mapDel]
  | cons q rest ih =>
    simp only [List.map_cons, List.nodup_cons] at hn
    by_cases hq : q.1 = key
    · subst hq
      simp only [mapDel, if_pos rfl]
      constructor
      · intro hp
        refine ⟨List.mem_cons_of_mem _ hp, ?_⟩
        intro hpk
        exact hn.1 (List.mem_map.2 ⟨p, hp, hpk⟩)
      · rintro ⟨hp, hne⟩
        rcases List.mem_cons.1 hp with rfl | hp
        · exact absurd rfl hne
        · exact hp
    · simp only [mapDel, if_neg hq, List.mem_cons, ih hn.2]
      constructor
      · rintro (rfl | ⟨hp, hne⟩)
        · exact ⟨Or.inl rfl, hq⟩
        · exact ⟨Or.inr hp, hne⟩
      · rintro ⟨rfl | hp, hne⟩
        · exact Or.inl rfl
        · exact Or.inr ⟨hp, hne⟩

theorem mem_of_getLast_eq {l : List (Node K V)} {e : Node K V}
    (h : l.getLast? = some e) : e ∈ l := by
  rcases List.getLast?_eq_some_iff.1 h with ⟨ys, rfl⟩
  simp

/-! ## The map-list consistency invariant -/

/-- Mutual consistency of the recency list `l`, the key index `m` and the
id supply `nid`: node ids and keys are duplicate-free, the index has
duplicate-free keys (a Go map), every index binding points at a live node
holding the bound key, every live node is indexed under its key, and all
live ids are below the supply. -/
structure InvAt (l : List (Node K V)) (m : List (K × Nat)) (nid : Nat) :
    Prop where
  idsNodup : (idsOf l).Nodup
  keysNodup : (keysOf l).Nodup
  mapNodup : (m.map Prod.fst).Nodup
  mapSound : ∀ p ∈ m, ∃ v, (p.2, p.1, v) ∈ l
  listIndexed : ∀ e ∈ l, (e.2.1, e.1) ∈ m
  idsLt : ∀ e ∈ l, e.1 < nid

/-- The cache invariant: a nil map comes with an empty (nil) list, and a
live map is consistent with the list. -/
def Inv (c : Cache K V) : Prop :=
  match c.cache with
  | none => c.ll = []
  | some m => InvAt c.ll m c.nextId

theorem InvAt.findNode_eq {l : List (Node K V)} {m : List (K × Nat)}
    {nid : Nat} (hinv : InvAt l m nid) {key : K} {i : Nat}
    (hm : (key, i) ∈ m) : ∃ v, findNode l i = some (i, key, v) := by
  obtain ⟨v, hv⟩ := hinv.mapSound (key, i) hm
  exact ⟨v, findNode_of_mem hinv.idsNodup hv⟩

theorem InvAt.front {l : List (Node K V)} {m : List (K × Nat)} {nid : Nat}
    (hinv : InvAt l m nid) {key : K} {i : Nat} (hm : (key, i) ∈ m) (v : V) :
    InvAt ((i, key, v) :: eraseNode l i) m nid := by
  obtain ⟨v0, hv0⟩ := hinv.mapSound (key, i) hm
  refine ⟨?_, ?_, hinv.mapNodup, ?_, ?_, ?_⟩
  · rw [idsOf, List.map_cons, List.nodup_cons]
    refine ⟨?_, ((eraseNode_sublist l i).map _).nodup hinv.idsNodup⟩
    intro hmem
    obtain ⟨e, he, hei⟩ := List.mem_map.1 hmem
    exact ((mem_eraseNode_iff hinv.idsNodup e).1 he).2 hei
  · rw [keysOf, List.map_cons, List.nodup_cons]
    refine ⟨?_, ((eraseNode_sublist l i).map _).nodup hinv.keysNodup⟩
    intro hmem
    obtain ⟨e, he, hek⟩ := List.mem_map.1 hmem
    have hel := (mem_eraseNode_iff hinv.idsNodup e).1 he
    have : e = (i, key, v0) := node_key_inj hinv.keysNodup hel.1 hv0 hek
    exact hel.2 (congrArg Prod.fst this)
  · intro p hp
    obtain ⟨v1, hv1⟩ := hinv.mapSound p hp
    by_cases hpi : p.2 = i
    · have : (p.2, p.1, v1) = (i, key, v0) :=
        node_id_inj hinv.idsNodup hv1 hv0 hpi
      have hk : p.1 = key := (congrArg (fun e => e.2.1) this)
      exact ⟨v, by rw [hpi, hk]; exact List.mem_cons_self _ _⟩
    · exact ⟨v1, List.mem_cons_of_mem _
        ((mem_eraseNode_iff hinv.idsNodup _).2 ⟨hv1, hpi⟩)⟩
  · intro e he
    rcases List.mem_cons.1 he with rfl | he
    · exact hm
    · exact hinv.listIndexed e (mem_of_mem_eraseNode he)
  · intro e he
    rcases List.mem_cons.1 he with rfl | he
    · simpa using hinv.idsLt _ hv0
    · exact hinv.idsLt e (mem_of_mem_eraseNode he)

theorem InvAt.removeEl {l : List (Node K V)} {m : List (K × Nat)} {nid : Nat}
    (hinv : InvAt l m nid) {e : Node K V} (he : e ∈ l) :
    InvAt (eraseNode l e.1) (mapDel m e.2.1) nid := by
  refine ⟨((eraseNode_sublist l e.1).map _).nodup hinv.idsNodup,
          ((eraseNode_sublist l e.1).map _).nodup hinv.keysNodup,
          ((mapDel_sublist m e.2.1).map _).nodup hinv.mapNodup, ?_, ?_, ?_⟩
  · intro p hp
    obtain ⟨hpm, hpk⟩ := (mem_mapDel_iff hinv.mapNodup p).1 hp
    obtain ⟨v1, hv1⟩ := hinv.mapSound p hpm
    refine ⟨v1, (mem_eraseNode_iff hinv.idsNodup _).2 ⟨hv1, ?_⟩⟩
    intro hpi
    have : (p.2, p.1, v1) = e := node_id_inj hinv.idsNodup hv1 he hpi
    exact hpk (congrArg (fun x => x.2.1) this)
  · intro e2 he2
    obtain ⟨he2l, he2i⟩ := (mem_eraseNode_iff hinv.idsNodup e2).1 he2
    refine (mem_mapDel_iff hinv.mapNodup _).2 ⟨hinv.listIndexed e2 he2l, ?_⟩
    intro hk
    exact he2i (congrArg Prod.fst (node_key_inj hinv.keysNodup he2l he hk))
  · intro e2 he2
    exact hinv.idsLt e2 (mem_of_mem_eraseNode he2)

theorem InvAt.push {l : List (Node K V)} {m : List (K × Nat)} {nid : Nat}
    (hinv : InvAt l m nid) (key : K) (habs : mapGet m key = none) (v : V) :
    InvAt ((nid, key, v) :: l) (mapSet m key nid) (nid + 1) := by
  rw [mapSet_of_get_none habs]
  have hkey : ∀ j, (key, j) ∉ m := by
    intro j hj
    exact mapGet_ne_none_of_mem hj habs
  refine ⟨?_, ?_, ?_, ?_, ?_, ?_⟩
  · rw [idsOf, List.map_cons, List.nodup_cons]
    refine ⟨?_, hinv.idsNodup⟩
    intro hmem
    obtain ⟨e, he, hei⟩ := List.mem_map.1 hmem
    have hnd := hinv.idsLt e he
    rw [hei] at hnd
    exact absurd hnd (by simp)
  · rw [keysOf, List.map_cons, List.nodup_cons]
    refine ⟨?_, hinv.keysNodup⟩
    intro hmem
    obtain ⟨e, he, hek⟩ := List.mem_map.1 hmem
    have hix := hinv.listIndexed e he
    rw [hek] at hix
    exact hkey e.1 (by simpa using hix)
  · rw [List.map_append, List.map_singleton]
    refine List.Nodup.append hinv.mapNodup (List.nodup_singleton key) ?_
    intro k hk1 hk2
    obtain ⟨p, hp, hpk⟩ := List.mem_map.1 hk1
    rw [List.mem_singleton] at hk2
    subst hk2
    exact hkey p.2 (by rw [← hpk]; exact hp)
  · intro p hp
    rcases List.mem_append.1 hp with hp | hp
    · obtain ⟨v1, hv1⟩ := hinv.mapSound p hp
      exact ⟨v1, List.mem_cons_of_mem _ hv1⟩
    · rw [List.mem_singleton] at hp
      subst hp
      exact ⟨v, List.mem_cons_self _ _⟩
  · intro e he
    rcases List.mem_cons.1 he with rfl | he
    · exact List.mem_append.2 (Or.inr (List.mem_singleton.2 rfl))
    · exact List.mem_append.2 (Or.inl (hinv.listIndexed e he))
  · intro e he
    rcases List.mem_cons.1 he with rfl | he
    · exact Nat.lt_succ_self nid
    · exact Nat.lt_succ_of_lt (hinv.idsLt e he)

/-! ## The invariant is preserved by every operation -/

theorem invAt_nil (nid : Nat) :
    InvAt ([] : List (Node K V)) ([] : List (K × Nat)) nid :=
  ⟨by simp [idsOf], by simp [keysOf], by simp, by simp, by simp, by simp⟩

theorem Inv.new (n : Int) : Inv (new n : Cache K V) := invAt_nil 0

theorem Inv.removeElement {c : Cache K V} (hinv : Inv c) {e : Node K V}
    (he : e ∈ c.ll) : Inv (c.removeElement e).1 := by
  rcases hc : c.cache with _ | m
  · simp only [Inv, hc] at hinv
    rw [hinv] at he
    cases he
  · simp only [Inv, hc] at hinv
    simp only [Inv, Cache.removeElement, hc, Option.map_some]
    exact hinv.removeEl he

theorem Inv.removeOldest {c : Cache K V} (hinv : Inv c) :
    Inv c.removeOldest.2.1 := by
  rcases hc : c.cache with _ | m
  · simpa [Cache.removeOldest, hc] using hinv
  · rcases hl : c.ll.getLast? with _ | e
    · simpa [Cache.removeOldest, hc, hl] using hinv
    · have he : e ∈ c.ll := mem_of_getLast_eq hl
      simp only [Cache.removeOldest, hc, hl]
      exact hinv.removeElement he

theorem Inv.add {c : Cache K V} (hinv : Inv c) (key : K) (v : V) :
    Inv (c.add key v).1 := by
  rcases hc : c.cache with _ | m
  · have h1 := (invAt_nil 0).push key rfl v
    simp only [Cache.add, hc, Option.isNone_none, if_true, Option.getD_some,
      mapGet]
    split
    · refine Inv.removeOldest ?_
      simp only [Inv]
      exact (invAt_nil c.nextId).push key rfl v
    · simp only [Inv]
      exact (invAt_nil c.nextId).push key rfl v
  · simp only [Inv, hc] at hinv
    rcases hg : mapGet m key with _ | i
    · simp only [Cache.add, hc, Option.isNone_some, Bool.false_eq_true,
        if_false, Option.getD_some, hg]
      split
      · refine Inv.removeOldest ?_
        simp only [Inv]
        exact hinv.push key hg v
      · simp only [Inv]
        exact hinv.push key hg v
    · have hm : (key, i) ∈ m := mapGet_eq_some_mem hg
      obtain ⟨v0, hfind⟩ := hinv.findNode_eq hm
      simp only [Cache.add, hc, Option.isNone_some, Bool.false_eq_true,
        if_false, Option.getD_some, hg]
      simp only [Inv, moveToFrontSet, hfind]
      exact hinv.front hm v

theorem Inv.get {c : Cache K V} (hinv : Inv c) (key : K) :
    Inv (c.get key).2 := by
  rcases hc : c.cache with _ | m
  · simpa [Cache.get, hc] using hinv
  · simp only [Inv, hc] at hinv
    rcases hg : mapGet m key with _ | i
    · simpa [Cache.get, hc, hg, Inv] using hinv
    · have hm : (key, i) ∈ m := mapGet_eq_some_mem hg
      obtain ⟨v0, hfind⟩ := hinv.findNode_eq hm
      simp only [Cache.get, hc, hg, hfind]
      simp only [Inv, moveToFront, hfind]
      exact hinv.front hm v0

theorem Inv.remove {c : Cache K V} (hinv : Inv c) (key : K) :
    Inv (c.remove key).1 := by
  rcases hc : c.cache with _ | m
  · simpa [Cache.remove, hc] using hinv
  · rcases hg : mapGet m key with _ | i
    · simpa [Cache.remove, hc, hg, Inv] using hinv
    · have hinvAt : InvAt c.ll m c.nextId := by simpa [Inv, hc] using hinv
      have hm : (key, i) ∈ m := mapGet_eq_some_mem hg
      obtain ⟨v0, hfind⟩ := hinvAt.findNode_eq hm
      simp only [Cache.remove, hc, hg, hfind]
      exact hinv.removeElement (findNode_eq_some hfind).1

theorem inv_removeForeachGo {fn : K → V → Bool × Bool} {c : Cache K V}
    {todo : List (Node K V)} (hinv : Inv c)
    (hmem : ∀ e ∈ todo, e ∈ c.ll) (hnd : (idsOf todo).Nodup) :
    Inv (removeForeachGo fn c todo).1 := by
  induction todo generalizing c with
  | nil => simpa [removeForeachGo] using hinv
  | cons e rest ih =>
    simp only [removeForeachGo]
    rcases hs : fn e.2.1 e.2.2 with ⟨stp, rem⟩
    by_cases hstop : stp
    · simpa [hstop] using hinv
    · simp only [hstop, if_false, Bool.false_eq_true]
    -- continue below
      by_cases hrem : rem
      · simp only [hrem, if_true]
        have he : e ∈ c.ll := hmem e (List.mem_cons_self _ _)
        have hidll : (idsOf c.ll).Nodup := by
          rcases hcc : c.cache with _ | m
          · simp only [Inv, hcc] at hinv
            rw [hinv]
            simp [idsOf]
          · simp only [Inv, hcc] at hinv
            exact hinv.idsNodup
        refine ih (hinv.removeElement he) ?_ ?_
        · intro r hr
          have hrll : r ∈ c.ll := hmem r (List.mem_cons_of_mem _ hr)
          have hne : r.1 ≠ e.1 := by
            simp only [idsOf, List.map_cons, List.nodup_cons] at hnd
            intro hre
            exact hnd.1 (hre ▸ List.mem_map.2 ⟨r, hr, rfl⟩)
          simp only [Cache.removeElement]
          exact (mem_eraseNode_iff hidll r).2 ⟨hrll, hne⟩
        · simp only [idsOf, List.map_cons, List.nodup_cons] at hnd
          exact hnd.2
      · simp only [hrem, if_false, Bool.false_eq_true]
        refine ih hinv (fun r hr => hmem r (List.mem_cons_of_mem _ hr)) ?_
        simp only [idsOf, List.map_cons, List.nodup_cons] at hnd
        exact hnd.2

theorem Inv.removeForeach {c : Cache K V} (hinv : Inv c)
    (fn : K → V → Bool × Bool) : Inv (c.removeForeach fn).1 := by
  rcases hc : c.cache with _ | m
  · simpa [Cache.removeForeach, hc] using hinv
  · have hinvAt : InvAt c.ll m c.nextId := by simpa [Inv, hc] using hinv
    simp only [Cache.removeForeach, hc]
    refine inv_removeForeachGo hinv (fun e he => List.mem_reverse.1 he) ?_
    have : idsOf (c.ll.reverse) = (idsOf c.ll).reverse := by
      simp [idsOf, List.map_reverse]
    rw [this]
    exact List.nodup_reverse.2 hinvAt.idsNodup

theorem Inv.setOnEvicted {c : Cache K V} (hinv : Inv c) (b : Bool) :
    Inv { c with onEvicted := b } := by
  rcases hc : c.cache with _ | m
  · simpa [Inv, hc] using hinv
  · simpa [Inv, hc] using hinv

/-- The cache states reachable from `New` by the public API (`Add`, `Get`,
`Remove`, `RemoveOldest`, `RemoveForeach`; `Len` and `Foreach` do not change
the state), together with assignments to the public `OnEvicted` field. -/
inductive Reachable : Cache K V → Prop where
  | new (n : Int) : Reachable (new n)
  | add {c : Cache K V} (key : K) (v : V) :
      Reachable c → Reachable (c.add key v).1
  | get {c : Cache K V} (key : K) :
      Reachable c → Reachable (c.get key).2
  | remove {c : Cache K V} (key : K) :
      Reachable c → Reachable (c.remove key).1
  | removeOldest {c : Cache K V} :
      Reachable c → Reachable c.removeOldest.2.1
  | removeForeach {c : Cache K V} (fn : K → V → Bool × Bool) :
      Reachable c → Reachable (c.removeForeach fn).1
  | setOnEvicted {c : Cache K V} (b : Bool) :
      Reachable c → Reachable { c with onEvicted := b }

theorem Reachable.inv {c : Cache K V} (h : Reachable c) : Inv c := by
  induction h with
  | new n => exact Inv.new n
  | add key v _ ih => exact ih.add key v
  | get key _ ih => exact ih.get key
  | remove key _ ih => exact ih.remove key
  | removeOldest _ ih => exact ih.removeOldest
  | removeForeach fn _ ih => exact ih.removeForeach fn
  | setOnEvicted b _ ih => exact ih.setOnEvicted b

/-! ## Lengths and the shape of the index after each operation -/

theorem length_moveToFrontSet (l : List (Node K V)) (i : Nat) (v : V) :
    (moveToFrontSet l i v).length = l.length := by
  rcases hf : findNode l i with _ | e
  · simp [moveToFrontSet, hf]
  · obtain ⟨hel, hei⟩ := findNode_eq_some hf
    simp only [moveToFrontSet, hf, List.length_cons]
    rw [← hei]
    exact length_eraseNode_of_mem hel

theorem length_moveToFront (l : List (Node K V)) (i : Nat) :
    (moveToFront l i).length = l.length := by
  rcases hf : findNode l i with _ | e
  · simp [moveToFront, hf]
  · obtain ⟨hel, hei⟩ := findNode_eq_some hf
    simp only [moveToFront, hf, List.length_cons]
    rw [← hei]
    exact length_eraseNode_of_mem hel

theorem removeOldest_cache_isSome {c : Cache K V} {m : List (K × Nat)}
    (hc : c.cache = some m) : ∃ m2, c.removeOldest.2.1.cache = some m2 := by
  rcases hl : c.ll.getLast? with _ | e
  · exact ⟨m, by simp [Cache.removeOldest, hc, hl]⟩
  · exact ⟨mapDel m e.2.1,
      by simp [Cache.removeOldest, hc, hl, Cache.removeElement]⟩

theorem add_cache_isSome (c : Cache K V) (key : K) (v : V) :
    ∃ m2, (c.add key v).1.cache = some m2 := by
  rcases hc : c.cache with _ | m
  · simp only [Cache.add, hc, Option.isNone_none, if_true, Option.getD_some,
      mapGet]
    split
    · exact removeOldest_cache_isSome rfl
    · exact ⟨_, rfl⟩
  · rcases hg : mapGet m key with _ | i
    · simp only [Cache.add, hc, Option.isNone_some, Bool.false_eq_true,
        if_false, Option.getD_some, hg]
      split
      · exact removeOldest_cache_isSome rfl
      · exact ⟨_, rfl⟩
    · simp only [Cache.add, hc, Option.isNone_some, Bool.false_eq_true,
        if_false, Option.getD_some, hg]
      exact ⟨m, rfl⟩

theorem get_cache_eq (c : Cache K V) (key : K) :
    (c.get key).2.cache = c.cache := by
  rcases hc : c.cache with _ | m
  · simp [Cache.get, hc]
  · rcases hg : mapGet m key with _ | i
    · simp [Cache.get, hc, hg]
    · rcases hf : findNode c.ll i with _ | e
      · simp [Cache.get, hc, hg, hf]
      · simp [Cache.get, hc, hg, hf]

theorem remove_cache_isSome {c : Cache K V} {m : List (K × Nat)}
    (hc : c.cache = some m) (key : K) :
    ∃ m2, (c.remove key).1.cache = some m2 := by
  rcases hg : mapGet m key with _ | i
  · exact ⟨m, by simp [Cache.remove, hc, hg]⟩
  · rcases hf : findNode c.ll i with _ | e
    · exact ⟨m, by simp [Cache.remove, hc, hg, hf]⟩
    · exact ⟨mapDel m e.2.1, by simp [Cache.remove, hc, hg, hf,
        Cache.removeElement]⟩

theorem removeForeachGo_cache_isSome {fn : K → V → Bool × Bool}
    {c : Cache K V} {m : List (K × Nat)} (hc : c.cache = some m)
    (todo : List (Node K V)) :
    ∃ m2, (removeForeachGo fn c todo).1.cache = some m2 := by
  induction todo generalizing c m with
  | nil => exact ⟨m, hc⟩
  | cons e rest ih =>
    simp only [removeForeachGo]
    split
    · exact ⟨m, hc⟩
    · split
      · have hr : (c.removeElement e).1.cache = some (mapDel m e.2.1) := by
          simp [Cache.removeElement, hc]
        obtain ⟨m2, hm2⟩ := ih hr
        exact ⟨m2, hm2⟩
      · exact ih hc

theorem removeForeach_cache_isSome {c : Cache K V} {m : List (K × Nat)}
    (hc : c.cache = some m) (fn : K → V → Bool × Bool) :
    ∃ m2, (c.removeForeach fn).1.cache = some m2 := by
  simp only [Cache.removeForeach, hc]
  exact removeForeachGo_cache_isSome hc _

theorem Reachable.cache_isSome {c : Cache K V} (h : Reachable c) :
    ∃ m, c.cache = some m := by
  induction h with
  | new n => exact ⟨[], rfl⟩
  | add key v _ _ => exact add_cache_isSome _ key v
  | get key _ ih =>
    obtain ⟨m, hm⟩ := ih
    exact ⟨m, by rw [get_cache_eq]; exact hm⟩
  | remove key _ ih =>
    obtain ⟨m, hm⟩ := ih
    exact remove_cache_isSome hm key
  | removeOldest _ ih =>
    obtain ⟨m, hm⟩ := ih
    exact removeOldest_cache_isSome hm
  | removeForeach fn _ ih =>
    obtain ⟨m, hm⟩ := ih
    exact removeForeach_cache_isSome hm fn
  | setOnEvicted b _ ih => exact ih

/-- C2: with capacity `MaxEntries = N > 0` and `Len() <= N`, any `Add`
call leaves `Len() <= N`. -/
theorem add_len_le_maxEntries {c : Cache K V} (key : K) (v : V)
    (hpos : 0 < c.maxEntries) (hlen : (c.len : Int) ≤ c.maxEntries) :
    ((c.add key v).1.len : Int) ≤ c.maxEntries := by
  rcases hc : c.cache with _ | m
  · simp only [Cache.add, hc, Option.isNone_none, if_true, Option.getD_some,
      mapGet]
    split
    next h =>
      simp only [List.length_cons, List.length_nil] at h
      omega
    next h =>
      simp only [Cache.len, List.length_cons, List.length_nil]
      omega
  · have hlenl : (c.len : Int) = (c.ll.length : Int) := by
      simp [Cache.len, hc]
    rcases hg : mapGet m key with _ | i
    · simp only [Cache.add, hc, Option.isNone_some, Bool.false_eq_true,
        if_false, Option.getD_some, hg]
      split
      next h =>
        rcases hl : ((c.nextId, key, v) :: c.ll).getLast? with _ | e
        · rw [List.getLast?_eq_none_iff] at hl
          cases hl
        · have he := mem_of_getLast_eq hl
          have hlen2 := length_eraseNode_of_mem he
          simp only [Cache.removeOldest, hl, Cache.removeElement, Cache.len,
            Option.map_some']
          simp only [List.length_cons] at hlen2
          rw [hlenl] at hlen
          omega
      next h =>
        push_neg at h
        have hne : c.maxEntries ≠ 0 := by omega
        have := h hne
        simp only [List.length_cons] at this
        simp only [Cache.len, List.length_cons]
        omega
    · simp only [Cache.add, hc, Option.isNone_some, Bool.false_eq_true,
        if_false, Option.getD_some, hg, Cache.len, hc, length_moveToFrontSet]
      rw [hlenl] at hlen
      exact hlen

/-- Witness for C2 at a concrete cache: `New(2)` then `Add 5 7`. -/
theorem add_len_le_maxEntries_witness :
    0 < (new 2 : Cache Nat Nat).maxEntries ∧
      (((new 2 : Cache Nat Nat).len : Int) ≤ (new 2 : Cache Nat Nat).maxEntries) ∧
      ((((new 2 : Cache Nat Nat).add 5 7).1.len : Int) ≤
        (new 2 : Cache Nat Nat).maxEntries) :=
  ⟨by decide, by decide, add_len_le_maxEntries 5 7 (by decide) (by decide)⟩

/-- C1: in every cache state reachable by the public operations, `Len()`
equals the number of distinct keys in the index, every indexed key resolves
to exactly one live node holding that same key (namely the node its handle
points at), every node of the recency sequence has exactly one index entry,
and no two nodes of the sequence hold the same key. -/
theorem reachable_index_list_consistent {c : Cache K V} (h : Reachable c) :
    ∃ m, c.cache = some m ∧
      c.len = ((m.map Prod.fst).dedup).length ∧
      (∀ p ∈ m, ∃! e : Node K V, e ∈ c.ll ∧ e.1 = p.2 ∧ e.2.1 = p.1) ∧
      (∀ e ∈ c.ll, ∃! p : K × Nat, p ∈ m ∧ p.1 = e.2.1) ∧
      (keysOf c.ll).Nodup := by
  obtain ⟨m, hm⟩ := h.cache_isSome
  have hinv : InvAt c.ll m c.nextId := by
    have hi := h.inv
    simpa [Inv, hm] using hi
  refine ⟨m, hm, ?_, ?_, ?_, hinv.keysNodup⟩
  · have hdedup : (m.map Prod.fst).dedup = m.map Prod.fst :=
      List.dedup_eq_self.2 hinv.mapNodup
    have hperm : (m.map Prod.fst).Perm (keysOf c.ll) := by
      rw [List.perm_ext_iff_of_nodup hinv.mapNodup hinv.keysNodup]
      intro k
      constructor
      · intro hk
        obtain ⟨p, hp, hpk⟩ := List.mem_map.1 hk
        obtain ⟨v, hv⟩ := hinv.mapSound p hp
        exact List.mem_map.2 ⟨(p.2, p.1, v), hv, hpk⟩
      · intro hk
        obtain ⟨e, he, hek⟩ := List.mem_map.1 hk
        exact List.mem_map.2 ⟨(e.2.1, e.1), hinv.listIndexed e he, hek⟩
    have hlen1 := hperm.length_eq
    simp only [List.length_map, keysOf] at hlen1
    rw [hdedup, List.length_map]
    simp [Cache.len, hm, hlen1]
  · intro p hp
    obtain ⟨v, hv⟩ := hinv.mapSound p hp
    refine ⟨(p.2, p.1, v), ⟨hv, rfl, rfl⟩, ?_⟩
    rintro e ⟨he, hei, hek⟩
    exact node_id_inj hinv.idsNodup he hv (by rw [hei])
  · intro e he
    refine ⟨(e.2.1, e.1), ⟨hinv.listIndexed e he, rfl⟩, ?_⟩
    rintro p ⟨hp, hpk⟩
    exact List.inj_on_of_nodup_map hinv.mapNodup hp
      (hinv.listIndexed e he) (by rw [hpk])

/-- A concrete reachable state for the C1 witness: `New(2)`, `Add 1 10`,
`Add 2 20`. -/
def c1w : Cache Nat Nat := (((new 2).add 1 10).1.add 2 20).1

/-- Witness for C1 at the concrete reachable state `c1w`. -/
theorem reachable_index_list_consistent_witness :
    ∃ m, c1w.cache = some m ∧
      c1w.len = ((m.map Prod.fst).dedup).length ∧
      (∀ p ∈ m, ∃! e : Node Nat Nat, e ∈ c1w.ll ∧ e.1 = p.2 ∧ e.2.1 = p.1) ∧
      (∀ e ∈ c1w.ll, ∃! p : Nat × Nat, p ∈ m ∧ p.1 = e.2.1) ∧
      (keysOf c1w.ll).Nodup :=
  reachable_index_list_consistent
    (Reachable.add 2 20 (Reachable.add 1 10 (Reachable.new 2)))

/-! ## Characterization of `Add` -/

theorem mapGet_mapSet_self (m : List (K × Nat)) (key : K) (i : Nat) :
    mapGet (mapSet m key i) key = some i := by
  induction m with
  | nil => simp [mapSet, mapGet]
  | cons p rest ih =>
    obtain ⟨k, j⟩ := p
    by_cases hp : k = key
    · simp [mapSet, mapGet, hp]
    · simp [mapSet, mapGet, hp, ih]

/-- Behavior of `Add` for an absent key without overflow: push the node, index it,
no eviction. -/
theorem add_absent_fit_eq {c : Cache K V} {m : List (K × Nat)}
    (hc : c.cache = some m) {key : K} (habs : mapGet m key = none) (v : V)
    (hfit : ¬(c.maxEntries ≠ 0 ∧ ((c.ll.length : Int) + 1) > c.maxEntries)) :
    (c.add key v).1.ll = (c.nextId, key, v) :: c.ll ∧
    (c.add key v).1.cache = some (mapSet m key c.nextId) ∧
    (c.add key v).2 = [] := by
  have hcond : ¬(c.maxEntries ≠ 0 ∧
      ((((c.nextId, key, v) :: c.ll).length : Nat) : Int) > c.maxEntries) := by
    simp only [List.length_cons]
    push_cast
    intro hx
    exact hfit ⟨hx.1, by omega⟩
  simp only [Cache.add, hc, Option.isNone_some, Bool.false_eq_true, if_false,
    Option.getD_some, habs, if_neg hcond]
  exact ⟨trivial, trivial, trivial⟩

/-- Behavior of `Add` for an absent key with overflow: push the node, index it, then
`RemoveOldest` removes the back node `b` through `removeElement`. -/
theorem add_absent_exceed_eq {c : Cache K V} {m : List (K × Nat)}
    (hc : c.cache = some m) {key : K} (habs : mapGet m key = none) (v : V)
    (hcap : c.maxEntries ≠ 0)
    (hgt : ((c.ll.length : Int) + 1) > c.maxEntries) {b : Node K V}
    (hl : ((c.nextId, key, v) :: c.ll).getLast? = some b) :
    (c.add key v).1.ll = eraseNode ((c.nextId, key, v) :: c.ll) b.1 ∧
    (c.add key v).1.cache = some (mapDel (mapSet m key c.nextId) b.2.1) ∧
    (c.add key v).2 = (if c.onEvicted then [(b.2.1, b.2.2)] else []) := by
  have hcond : c.maxEntries ≠ 0 ∧
      ((((c.nextId, key, v) :: c.ll).length : Nat) : Int) > c.maxEntries := by
    refine ⟨hcap, ?_⟩
    simp only [List.length_cons]
    push_cast
    omega
  simp only [Cache.add, hc, Option.isNone_some, Bool.false_eq_true, if_false,
    Option.getD_some, habs, if_pos hcond, Cache.removeOldest, hl,
    Cache.removeElement, Option.map_some']
  exact ⟨trivial, trivial, trivial⟩

/-- C3: `Add` of an absent key on a cache with nonzero capacity creates a
new front node holding (key, value) and indexes it; if the resulting size
exceeds the capacity, exactly one entry — the current back node — is
evicted via `removeElement`, the callback firing exactly once with that
least-recently-used entry's key and value. -/
theorem add_absent_spec {c : Cache K V} {m : List (K × Nat)}
    (hc : c.cache = some m) {key : K} (habs : mapGet m key = none) (v : V)
    (hcb : c.onEvicted = true) (hcap : c.maxEntries ≠ 0) :
    mapGet (mapSet m key c.nextId) key = some c.nextId ∧
    (¬(((c.ll.length : Int) + 1) > c.maxEntries) →
      (c.add key v).1.ll = (c.nextId, key, v) :: c.ll ∧
      (c.add key v).1.cache = some (mapSet m key c.nextId) ∧
      (c.add key v).2 = []) ∧
    ((((c.ll.length : Int) + 1) > c.maxEntries) →
      ∃ b, ((c.nextId, key, v) :: c.ll).getLast? = some b ∧
        (c.add key v).1.ll = eraseNode ((c.nextId, key, v) :: c.ll) b.1 ∧
        (c.add key v).1.cache = some (mapDel (mapSet m key c.nextId) b.2.1) ∧
        (c.add key v).2 = [(b.2.1, b.2.2)]) := by
  refine ⟨mapGet_mapSet_self m key c.nextId, ?_, ?_⟩
  · intro hfit
    exact add_absent_fit_eq hc habs v (fun hx => hfit hx.2)
  · intro hgt
    rcases hl : ((c.nextId, key, v) :: c.ll).getLast? with _ | b
    · rw [List.getLast?_eq_none_iff] at hl
      cases hl
    · obtain ⟨h1, h2, h3⟩ := add_absent_exceed_eq hc habs v hcap hgt hl
      simp only [hcb, if_true] at h3
      exact ⟨b, rfl, h1, h2, h3⟩

/-- A concrete state for the C3 witness: `New(1)` with the callback set,
then `Add 1 10`. -/
def c3w : Cache Nat Nat := { ((new 1).add 1 10).1 with onEvicted := true }

/-- Witness for C3: `New(1)` with callback, `Add 1 10`, then `Add 2 20`
overflows and evicts the back node `(0, 1, 10)`. -/
theorem add_absent_spec_witness :
    mapGet (mapSet [((1 : Nat), (0 : Nat))] 2 c3w.nextId) 2
        = some c3w.nextId ∧
    (¬(((c3w.ll.length : Int) + 1) > c3w.maxEntries) →
      (c3w.add 2 20).1.ll = (c3w.nextId, 2, 20) :: c3w.ll ∧
      (c3w.add 2 20).1.cache = some (mapSet [(1, 0)] 2 c3w.nextId) ∧
      (c3w.add 2 20).2 = []) ∧
    ((((c3w.ll.length : Int) + 1) > c3w.maxEntries) →
      ∃ b, ((c3w.nextId, (2 : Nat), (20 : Nat)) :: c3w.ll).getLast? = some b ∧
        (c3w.add 2 20).1.ll
            = eraseNode ((c3w.nextId, 2, 20) :: c3w.ll) b.1 ∧
        (c3w.add 2 20).1.cache
            = some (mapDel (mapSet [(1, 0)] 2 c3w.nextId) b.2.1) ∧
        (c3w.add 2 20).2 = [(b.2.1, b.2.2)]) := by
  apply add_absent_spec <;> decide

/-- C4: `Add` of a present key updates the value in place, moves the node
to the front, changes neither `Len()` nor the index, fires no eviction
callback, and a following `Get` returns the new value. -/
theorem add_present_spec {c : Cache K V} {m : List (K × Nat)}
    (hc : c.cache = some m) (hinv : InvAt c.ll m c.nextId) {key : K}
    {i : Nat} (hg : mapGet m key = some i) (v2 : V) :
    ∃ v1, (i, key, v1) ∈ c.ll ∧
      (c.add key v2).1.ll = (i, key, v2) :: eraseNode c.ll i ∧
      (c.add key v2).1.cache = some m ∧
      (c.add key v2).2 = [] ∧
      (c.add key v2).1.len = c.len ∧
      ((c.add key v2).1.get key).1 = some v2 := by
  have hm : (key, i) ∈ m := mapGet_eq_some_mem hg
  obtain ⟨v1, hfind⟩ := hinv.findNode_eq hm
  have hmem : (i, key, v1) ∈ c.ll := (findNode_eq_some hfind).1
  refine ⟨v1, hmem, ?_⟩
  have hll : (c.add key v2).1.ll = (i, key, v2) :: eraseNode c.ll i := by
    simp [Cache.add, hc, hg, moveToFrontSet, hfind]
  have hcache : (c.add key v2).1.cache = some m := by
    simp [Cache.add, hc, hg]
  refine ⟨hll, hcache, ?_, ?_, ?_⟩
  · simp [Cache.add, hc, hg]
  · have h1 : (c.add key v2).1.len = (eraseNode c.ll i).length + 1 := by
      simp [Cache.len, hcache, hll]
    have h2 := length_eraseNode_of_mem hmem
    rw [h1]
    simp only [Cache.len, hc]
    simpa using h2
  · have hfind2 : findNode ((i, key, v2) :: eraseNode c.ll i) i
        = some (i, key, v2) := by
      simp [findNode]
    simp [Cache.get, hcache, hll, hg, hfind2]

/-- A concrete state for the C4 witness: `New(2)` then `Add 1 10`. -/
def c4w : Cache Nat Nat := ((new 2).add 1 10).1

/-- Witness for C4: `New(2)`, `Add 1 10`, then `Add 1 11` updates in
place. -/
theorem add_present_spec_witness :
    ∃ v1, ((0 : Nat), (1 : Nat), v1) ∈ c4w.ll ∧
      (c4w.add 1 11).1.ll = (0, 1, 11) :: eraseNode c4w.ll 0 ∧
      (c4w.add 1 11).1.cache = some [(1, 0)] ∧
      (c4w.add 1 11).2 = [] ∧
      (c4w.add 1 11).1.len = c4w.len ∧
      ((c4w.add 1 11).1.get 1).1 = some 11 := by
  apply add_present_spec
  · decide
  · exact (Reachable.add 1 10 (Reachable.new 2)).inv
  · decide

/-- C10: with a negative `MaxEntries` (outside the spec's non-negative
interface), `Add` of an absent key always triggers the eviction of the
current back node right after the insertion; on an empty cache the evicted
node is the entry just added, leaving `Len() = 0`. -/
theorem add_negative_maxEntries_spec {c : Cache K V} {m : List (K × Nat)}
    (hc : c.cache = some m) {key : K} (habs : mapGet m key = none) (v : V)
    (hcb : c.onEvicted = true) (hneg : c.maxEntries < 0) :
    ∃ b, ((c.nextId, key, v) :: c.ll).getLast? = some b ∧
      (c.add key v).1.ll = eraseNode ((c.nextId, key, v) :: c.ll) b.1 ∧
      (c.add key v).2 = [(b.2.1, b.2.2)] ∧
      (c.ll = [] →
        (c.add key v).1.len = 0 ∧ (c.add key v).2 = [(key, v)]) := by
  have hcap : c.maxEntries ≠ 0 := by omega
  have hgt : ((c.ll.length : Int) + 1) > c.maxEntries := by
    have : (0 : Int) ≤ (c.ll.length : Int) := Int.ofNat_nonneg _
    omega
  rcases hl : ((c.nextId, key, v) :: c.ll).getLast? with _ | b
  · rw [List.getLast?_eq_none_iff] at hl
    cases hl
  · obtain ⟨h1, h2, h3⟩ := add_absent_exceed_eq hc habs v hcap hgt hl
    simp only [hcb, if_true] at h3
    refine ⟨b, rfl, h1, h3, ?_⟩
    intro hnil
    have hb : b = (c.nextId, key, v) := by
      rw [hnil] at hl
      simpa using hl.symm
    constructor
    · have hll0 : (c.add key v).1.ll = [] := by
        rw [h1, hnil, hb]
        simp [eraseNode]
      simp [Cache.len, h2, hll0]
    · rw [h3, hb]

/-- A concrete state for the C10 witness: `New(-3)` with the callback
set. -/
def c10w : Cache Nat Nat := { (new (-3) : Cache Nat Nat) with onEvicted := true }

/-- Witness for C10: a fresh cache with `MaxEntries = -3` and the callback
set; `Add 7 70` evicts the entry it just added. -/
theorem add_negative_maxEntries_spec_witness :
    ∃ b, ((c10w.nextId, (7 : Nat), (70 : Nat)) :: c10w.ll).getLast? = some b ∧
      (c10w.add 7 70).1.ll
          = eraseNode ((c10w.nextId, 7, 70) :: c10w.ll) b.1 ∧
      (c10w.add 7 70).2 = [(b.2.1, b.2.2)] ∧
      (c10w.ll = [] →
        (c10w.add 7 70).1.len = 0 ∧ (c10w.add 7 70).2 = [(7, 70)]) := by
  apply add_negative_maxEntries_spec (m := []) <;> decide

/-! ## `Get` and `RemoveOldest` -/

/-- C5: `Get` of a present key returns the stored value with a hit and
moves that key's node to the front of the recency sequence (the rest of
the order unchanged); `Get` of an absent key — or on a nil map — returns
a not-found result and leaves the whole cache state unchanged. -/
theorem get_spec (c : Cache K V) (key : K) :
    (c.cache = none → c.get key = (none, c)) ∧
    (∀ m, c.cache = some m → InvAt c.ll m c.nextId →
      (mapGet m key = none → c.get key = (none, c)) ∧
      (∀ i, mapGet m key = some i →
        ∃ v0, (i, key, v0) ∈ c.ll ∧
          c.get key = (some v0,
            { c with ll := (i, key, v0) :: eraseNode c.ll i }))) := by
  constructor
  · intro hc
    simp [Cache.get, hc]
  · intro m hc hinv
    constructor
    · intro hg
      simp [Cache.get, hc, hg]
    · intro i hg
      obtain ⟨v0, hfind⟩ := hinv.findNode_eq (mapGet_eq_some_mem hg)
      refine ⟨v0, (findNode_eq_some hfind).1, ?_⟩
      simp [Cache.get, hc, hg, hfind, moveToFront]

/-- A concrete state for the C5 witness: `New(2)` then `Add 1 10`. -/
def c5w : Cache Nat Nat := ((new 2).add 1 10).1

/-- Witness for C5: `Get 1` on `c5w` hits node `(0, 1, 10)`. -/
theorem get_spec_witness :
    ∃ v0, ((0 : Nat), (1 : Nat), v0) ∈ c5w.ll ∧
      c5w.get 1 = (some v0,
        { c5w with ll := (0, 1, v0) :: eraseNode c5w.ll 0 }) :=
  ((get_spec c5w 1).2 [(1, 0)] rfl
    ((Reachable.add 1 10 (Reachable.new 2)).inv)).2 0 rfl

/-- C6: `RemoveOldest` on a non-empty cache removes the back-most node
via the shared removal path `removeElement` — unlinking it from the
sequence, deleting its key from the index and firing the callback when
set — and returns that node's key; on an empty cache (or a nil map) it
returns `none` and performs no mutation. -/
theorem removeOldest_spec (c : Cache K V) :
    (c.cache = none → c.removeOldest = (none, c, [])) ∧
    (∀ m, c.cache = some m →
      (c.ll = [] → c.removeOldest = (none, c, [])) ∧
      (∀ e, c.ll.getLast? = some e →
        c.removeOldest = (some e.2.1, (c.removeElement e).1,
          if c.onEvicted then [(e.2.1, e.2.2)] else []) ∧
        (c.removeElement e).1.ll = eraseNode c.ll e.1 ∧
        (c.removeElement e).1.cache = some (mapDel m e.2.1))) := by
  constructor
  · intro hc
    simp [Cache.removeOldest, hc]
  · intro m hc
    constructor
    · intro hnil
      simp [Cache.removeOldest, hc, hnil]
    · intro e hl
      refine ⟨?_, rfl, ?_⟩
      · simp [Cache.removeOldest, hc, hl, Cache.removeElement]
      · simp [Cache.removeElement, hc]

/-- A concrete state for the C6 witness: `New(2)` then `Add 1 10`. -/
def c6w : Cache Nat Nat := ((new 2).add 1 10).1

/-- Witness for C6: `RemoveOldest` on `c6w` removes node `(0, 1, 10)` and
returns key `1`. -/
theorem removeOldest_spec_witness :
    c6w.removeOldest = (some 1, (c6w.removeElement (0, 1, 10)).1,
        if c6w.onEvicted then [((1 : Nat), (10 : Nat))] else []) ∧
      (c6w.removeElement (0, 1, 10)).1.ll = eraseNode c6w.ll 0 ∧
      (c6w.removeElement (0, 1, 10)).1.cache = some (mapDel [(1, 0)] 1) :=
  ((removeOldest_spec c6w).2 [(1, 0)] rfl).2 (0, 1, 10) rfl

/-! ## `Foreach` -/

theorem visitList_map_split (fn : K → V → Bool) (xs : List (Node K V)) :
    ∃ t, xs.map (fun e => (e.2.1, e.2.2)) = visitList fn xs ++ t := by
  induction xs with
  | nil => exact ⟨[], rfl⟩
  | cons e rest ih =>
    by_cases hf : fn e.2.1 e.2.2
    · exact ⟨rest.map (fun e => (e.2.1, e.2.2)), by simp [visitList, hf]⟩
    · obtain ⟨t, ht⟩ := ih
      exact ⟨t, by simp [visitList, hf, ht]⟩

theorem visitList_dropLast_false (fn : K → V → Bool) (xs : List (Node K V)) :
    ∀ p ∈ (visitList fn xs).dropLast, fn p.1 p.2 = false := by
  induction xs with
  | nil => simp [visitList]
  | cons e rest ih =>
    by_cases hf : fn e.2.1 e.2.2
    · simp [visitList, hf]
    · rcases hv : visitList fn rest with _ | ⟨q, v2⟩
      · simp [visitList, hf, hv]
      · intro p hp
        rw [visitList] at hp
        simp only [hf, if_false, Bool.false_eq_true, hv,
          List.dropLast_cons₂] at hp
        rcases List.mem_cons.1 hp with rfl | hp
        · simpa using hf
        · exact ih p (by rw [hv]; exact hp)

theorem visitList_getLast_true (fn : K → V → Bool) (xs : List (Node K V))
    (h : visitList fn xs ≠ xs.map (fun e => (e.2.1, e.2.2))) :
    ∃ p, (visitList fn xs).getLast? = some p ∧ fn p.1 p.2 = true := by
  induction xs with
  | nil => simp [visitList] at h
  | cons e rest ih =>
    by_cases hf : fn e.2.1 e.2.2
    · exact ⟨(e.2.1, e.2.2), by simp [visitList, hf], hf⟩
    · have hne : visitList fn rest ≠ rest.map (fun e => (e.2.1, e.2.2)) := by
        intro hx
        exact h (by simp [visitList, hf, hx])
      obtain ⟨p, hp, hpt⟩ := ih hne
      refine ⟨p, ?_, hpt⟩
      rcases hv : visitList fn rest with _ | ⟨q, v2⟩
      · rw [hv] at hp
        simp at hp
      · rw [hv] at hp
        simp only [visitList, hf, if_false, Bool.false_eq_true, hv,
          List.getLast?_cons_cons]
        exact hp

theorem visitList_head (fn : K → V → Bool) (xs : List (Node K V)) :
    (visitList fn xs).head? = xs.head?.map (fun e => (e.2.1, e.2.2)) := by
  rcases xs with _ | ⟨e, rest⟩
  · simp [visitList]
  · by_cases hf : fn e.2.1 e.2.2
    · simp [visitList, hf]
    · simp [visitList, hf]

/-- C7: `Foreach` visits entries in ascending recency order — its trace is
a prefix of the back-to-front (oldest to newest) key/value sequence; every
visited entry except possibly the last returned `false` from the visitor;
a truncated traversal ends exactly at a visit that returned `true`; and on
a non-empty cache the first visited key is the key `RemoveOldest` would
evict. The embedded `Foreach` returns only the visit trace because the Go
loop performs no state mutation. -/
theorem foreach_spec {c : Cache K V} {m : List (K × Nat)}
    (hc : c.cache = some m) (fn : K → V → Bool) :
    (∃ t, c.ll.reverse.map (fun e => (e.2.1, e.2.2)) = c.foreach fn ++ t) ∧
    (∀ p ∈ (c.foreach fn).dropLast, fn p.1 p.2 = false) ∧
    (c.foreach fn ≠ c.ll.reverse.map (fun e => (e.2.1, e.2.2)) →
      ∃ p, (c.foreach fn).getLast? = some p ∧ fn p.1 p.2 = true) ∧
    (c.ll ≠ [] →
      (c.foreach fn).head?.map Prod.fst = c.removeOldest.1) := by
  have hfe : c.foreach fn = visitList fn c.ll.reverse := by
    simp [Cache.foreach, hc]
  refine ⟨?_, ?_, ?_, ?_⟩
  · rw [hfe]
    exact visitList_map_split fn c.ll.reverse
  · rw [hfe]
    exact visitList_dropLast_false fn c.ll.reverse
  · rw [hfe]
    exact visitList_getLast_true fn c.ll.reverse
  · intro hne
    rcases hl : c.ll.getLast? with _ | b
    · rw [List.getLast?_eq_none_iff] at hl
      exact absurd hl hne
    · have hh : c.ll.reverse.head? = some b := by
        rw [List.head?_reverse, hl]
      rw [hfe, visitList_head, hh]
      simp [Cache.removeOldest, hc, hl]

/-- A concrete state for the C7 witness: `New(3)`, `Add 1 10`,
`Add 2 20`. -/
def c7w : Cache Nat Nat := (((new 3).add 1 10).1.add 2 20).1

/-- Witness for C7 with a visitor that never stops. -/
theorem foreach_spec_witness :
    (∃ t, c7w.ll.reverse.map (fun e => (e.2.1, e.2.2))
        = c7w.foreach (fun _ _ => false) ++ t) ∧
    (∀ p ∈ (c7w.foreach (fun _ _ => false)).dropLast,
      (fun (_ : Nat) (_ : Nat) => false) p.1 p.2 = false) ∧
    (c7w.foreach (fun _ _ => false)
          ≠ c7w.ll.reverse.map (fun e => (e.2.1, e.2.2)) →
      ∃ p, (c7w.foreach (fun _ _ => false)).getLast? = some p ∧
        (fun (_ : Nat) (_ : Nat) => false) p.1 p.2 = true) ∧
    (c7w.ll ≠ [] →
      (c7w.foreach (fun _ _ => false)).head?.map Prod.fst
        = c7w.removeOldest.1) :=
  foreach_spec rfl (fun _ _ => false)

/-! ## `RemoveForeach` -/

/-- C8: in `RemoveForeach`, `stop` takes precedence over `remove`: a visit
returning `stop = true` halts the whole traversal at once and the visited
node is not removed even if `remove` is also `true` — in particular, when
the back-most (first visited) node gets `stop = true` the cache state,
its membership and `Len()` are all unchanged and no callback fires. -/
theorem removeForeach_stop_precedence {c : Cache K V} {m : List (K × Nat)}
    (hc : c.cache = some m) (fn : K → V → Bool × Bool) {e : Node K V}
    (hl : c.ll.getLast? = some e) (hstop : (fn e.2.1 e.2.2).1 = true) :
    c.removeForeach fn = (c, []) ∧
    (c.removeForeach fn).1.len = c.len ∧
    (∀ (c2 : Cache K V) (e2 : Node K V) todo, (fn e2.2.1 e2.2.2).1 = true →
      removeForeachGo fn c2 (e2 :: todo) = (c2, [])) := by
  have hgo : ∀ (c2 : Cache K V) (e2 : Node K V) todo,
      (fn e2.2.1 e2.2.2).1 = true →
      removeForeachGo fn c2 (e2 :: todo) = (c2, []) := by
    intro c2 e2 todo hs
    simp [removeForeachGo, hs]
  have hmain : c.removeForeach fn = (c, []) := by
    rcases hr : c.ll.reverse with _ | ⟨e0, rest⟩
    · rw [List.reverse_eq_nil_iff] at hr
      rw [hr] at hl
      simp at hl
    · have he0 : e0 = e := by
        have hh : c.ll.reverse.head? = some e := by
          rw [List.head?_reverse, hl]
        rw [hr] at hh
        simpa using hh
      subst he0
      simp only [Cache.removeForeach, hc, hr]
      exact hgo c e0 rest hstop
  exact ⟨hmain, by rw [hmain], hgo⟩

/-- A concrete state for the C8 witness: `New(3)` with callback set,
`Add 1 10`, `Add 2 20`. -/
def c8w : Cache Nat Nat :=
  { (((new 3).add 1 10).1.add 2 20).1 with onEvicted := true }

/-- Witness for C8: a visitor answering (stop, remove) = (true, true) on
every node leaves `c8w` untouched. -/
theorem removeForeach_stop_precedence_witness :
    c8w.removeForeach (fun _ _ => (true, true)) = (c8w, []) ∧
    (c8w.removeForeach (fun _ _ => (true, true))).1.len = c8w.len ∧
    (∀ (c2 : Cache Nat Nat) (e2 : Node Nat Nat) todo,
      ((fun (_ : Nat) (_ : Nat) => (true, true)) e2.2.1 e2.2.2).1 = true →
      removeForeachGo (fun _ _ => (true, true)) c2 (e2 :: todo) = (c2, [])) :=
  removeForeach_stop_precedence rfl (fun _ _ => (true, true))
    (e := (0, 1, 10)) rfl rfl

theorem eraseNode_eq_filter {l : List (Node K V)}
    (hn : (idsOf l).Nodup) (i : Nat) :
    eraseNode l i = l.filter (fun e => !(e.1 == i)) := by
  induction l with
  | nil => simp [eraseNode]
  | cons e rest ih =>
    simp only [idsOf, List.map_cons, List.nodup_cons] at hn
    by_cases he : e.1 = i
    · subst he
      rw [eraseNode, if_pos rfl, List.filter_cons]
      simp only [beq_self_eq_true, Bool.not_true, Bool.false_eq_true,
        if_false]
      have : ∀ x ∈ rest, (!(x.1 == e.1)) = true := by
        intro x hx
        simp only [Bool.not_eq_true', beq_eq_false_iff_ne]
        intro hxe
        exact hn.1 (List.mem_map.2 ⟨x, hx, hxe⟩)
      rw [List.filter_eq_self.2 this]
    · rw [eraseNode, if_neg he, List.filter_cons]
      simp only [ih hn.2]
      have : (!(e.1 == i)) = true := by
        simpa using he
      rw [this]
      simp

theorem removeElement_onEvicted (c : Cache K V) (e : Node K V) :
    (c.removeElement e).1.onEvicted = c.onEvicted := rfl

theorem removeForeachGo_never_stop_ll {fn : K → V → Bool × Bool}
    (hns : ∀ k v, (fn k v).1 = false) {c : Cache K V}
    {todo : List (Node K V)} (hmem : ∀ e ∈ todo, e ∈ c.ll)
    (hllnd : (idsOf c.ll).Nodup) (hndtodo : (idsOf todo).Nodup) :
    (removeForeachGo fn c todo).1.ll
      = c.ll.filter
          (fun e => !((idsOf todo).contains e.1 && (fn e.2.1 e.2.2).2)) := by
  induction todo generalizing c with
  | nil => simp [removeForeachGo, idsOf]
  | cons e rest ih =>
    have hmeme : e ∈ c.ll := hmem e (List.mem_cons_self _ _)
    have hmemr : ∀ r ∈ rest, r ∈ c.ll :=
      fun r hr => hmem r (List.mem_cons_of_mem _ hr)
    have hndr : (idsOf rest).Nodup := by
      simp only [idsOf, List.map_cons, List.nodup_cons] at hndtodo
      exact hndtodo.2
    have hid : e.1 ∉ idsOf rest := by
      simp only [idsOf, List.map_cons, List.nodup_cons] at hndtodo
      exact hndtodo.1
    simp only [removeForeachGo, hns e.2.1 e.2.2, Bool.false_eq_true,
      if_false]
    by_cases hrem : (fn e.2.1 e.2.2).2 = true
    · simp only [hrem, if_true]
      have hc2ll : (c.removeElement e).1.ll = eraseNode c.ll e.1 := rfl
      have hmem2 : ∀ r ∈ rest, r ∈ (c.removeElement e).1.ll := by
        intro r hr
        rw [hc2ll]
        refine (mem_eraseNode_iff hllnd r).2 ⟨hmemr r hr, ?_⟩
        intro hre
        exact hid (hre ▸ List.mem_map.2 ⟨r, hr, rfl⟩)
      have hllnd2 : (idsOf (c.removeElement e).1.ll).Nodup := by
        rw [hc2ll]
        exact ((eraseNode_sublist c.ll e.1).map _).nodup hllnd
      have hstep := ih hmem2 hllnd2 hndr
      rw [hc2ll, eraseNode_eq_filter hllnd, List.filter_filter] at hstep
      rw [hstep]
      refine List.filter_congr ?_
      intro x hx
      by_cases hxe : x.1 = e.1
      · have hxeq : x = e := node_id_inj hllnd hx hmeme hxe
        subst hxeq
        simp [hrem, idsOf]
      · have h1 : ((idsOf (x :: rest)).contains x.1) = true := by
          simp [idsOf]
        have hcontains :
            ((idsOf (e :: rest)).contains x.1) = ((idsOf rest).contains x.1) := by
          simp only [idsOf, List.map_cons, List.contains_cons]
          have hb1 : (x.1 == e.1) = false := by
            simpa using hxe
          have hb2 : (e.1 == x.1) = false := by
            simpa using (Ne.symm hxe)
          simp [hb1, hb2]
        rw [hcontains]
        have : (!(x.1 == e.1)) = true := by simpa using hxe
        rw [this]
        simp
    · have hremf : (fn e.2.1 e.2.2).2 = false := by
        simpa using hrem
      simp only [hremf, Bool.false_eq_true, if_false]
      have hstep := ih hmemr hllnd hndr
      rw [hstep]
      refine List.filter_congr ?_
      intro x hx
      by_cases hxe : x.1 = e.1
      · have hxeq : x = e := node_id_inj hllnd hx hmeme hxe
        subst hxeq
        have : (idsOf rest).contains x.1 = false := by
          simp only [idsOf] at hid ⊢
          simpa [List.elem_iff] using hid
        simp [this, hremf, idsOf]
      · have hcontains :
            ((idsOf (e :: rest)).contains x.1) = ((idsOf rest).contains x.1) := by
          simp only [idsOf, List.map_cons, List.contains_cons]
          have hb1 : (x.1 == e.1) = false := by
            simpa using hxe
          have hb2 : (e.1 == x.1) = false := by
            simpa using (Ne.symm hxe)
          simp [hb1, hb2]
        rw [hcontains]

theorem removeForeachGo_cons_remove {fn : K → V → Bool × Bool}
    {e : Node K V} (hstop : (fn e.2.1 e.2.2).1 = false)
    (hrem : (fn e.2.1 e.2.2).2 = true) (c : Cache K V)
    (rest : List (Node K V)) :
    removeForeachGo fn c (e :: rest)
      = ((removeForeachGo fn (c.removeElement e).1 rest).1,
         (c.removeElement e).2
           ++ (removeForeachGo fn (c.removeElement e).1 rest).2) := by
  simp [removeForeachGo, hstop, hrem]

theorem removeForeachGo_cons_skip {fn : K → V → Bool × Bool}
    {e : Node K V} (hstop : (fn e.2.1 e.2.2).1 = false)
    (hrem : (fn e.2.1 e.2.2).2 = false) (c : Cache K V)
    (rest : List (Node K V)) :
    removeForeachGo fn c (e :: rest) = removeForeachGo fn c rest := by
  simp [removeForeachGo, hstop, hrem]

theorem removeForeachGo_never_stop_events {fn : K → V → Bool × Bool}
    (hns : ∀ k v, (fn k v).1 = false) {c : Cache K V}
    (hcb : c.onEvicted = true) (todo : List (Node K V)) :
    (removeForeachGo fn c todo).2
      = (todo.filter (fun e => (fn e.2.1 e.2.2).2)).map
          (fun e => (e.2.1, e.2.2)) := by
  induction todo generalizing c with
  | nil => simp [removeForeachGo]
  | cons e rest ih =>
    by_cases hrem : (fn e.2.1 e.2.2).2 = true
    · rw [removeForeachGo_cons_remove (hns e.2.1 e.2.2) hrem]
      have hev : (c.removeElement e).2 = [(e.2.1, e.2.2)] := by
        simp [Cache.removeElement, hcb]
      have hcb2 : (c.removeElement e).1.onEvicted = true := by
        rw [removeElement_onEvicted, hcb]
      rw [List.filter_cons]
      simp only [hev, ih hcb2, hrem, if_true]
      simp
    · have hremf : (fn e.2.1 e.2.2).2 = false := by
        simpa using hrem
      rw [removeForeachGo_cons_skip (hns e.2.1 e.2.2) hremf, ih hcb,
        List.filter_cons]
      simp [hremf]

/-- C9: a full `RemoveForeach` pass with a never-stopping visitor removes
exactly the entries the visitor flagged (the surviving sequence is the
filter of the old one, order preserved), fires the callback once per
removed entry in ascending recency (oldest to newest) order, and `Len()`
drops to the number of surviving entries. -/
theorem removeForeach_full_pass_spec {c : Cache K V} {m : List (K × Nat)}
    (hc : c.cache = some m) (hinv : InvAt c.ll m c.nextId)
    (hcb : c.onEvicted = true) (fn : K → V → Bool × Bool)
    (hns : ∀ k v, (fn k v).1 = false) :
    (c.removeForeach fn).1.ll
      = c.ll.filter (fun e => !(fn e.2.1 e.2.2).2) ∧
    (c.removeForeach fn).2
      = (c.ll.reverse.filter (fun e => (fn e.2.1 e.2.2).2)).map
          (fun e => (e.2.1, e.2.2)) ∧
    (c.removeForeach fn).1.len
      = (c.ll.filter (fun e => !(fn e.2.1 e.2.2).2)).length := by
  have hfr : c.removeForeach fn = removeForeachGo fn c c.ll.reverse := by
    simp [Cache.removeForeach, hc]
  have hmem : ∀ e ∈ c.ll.reverse, e ∈ c.ll :=
    fun e he => List.mem_reverse.1 he
  have hnd : (idsOf c.ll.reverse).Nodup := by
    have hrev : idsOf c.ll.reverse = (idsOf c.ll).reverse := by
      simp [idsOf, List.map_reverse]
    rw [hrev]
    exact List.nodup_reverse.2 hinv.idsNodup
  have hll := removeForeachGo_never_stop_ll hns hmem hinv.idsNodup hnd
  have hllf : (removeForeachGo fn c c.ll.reverse).1.ll
      = c.ll.filter (fun e => !(fn e.2.1 e.2.2).2) := by
    rw [hll]
    refine List.filter_congr ?_
    intro x hx
    have hxin : (idsOf c.ll.reverse).contains x.1 = true := by
      have hxm : x.1 ∈ idsOf c.ll.reverse :=
        List.mem_map.2 ⟨x, List.mem_reverse.2 hx, rfl⟩
      exact List.elem_iff.2 hxm
    rw [hxin]
    simp
  refine ⟨by rw [hfr]; exact hllf, ?_, ?_⟩
  · rw [hfr]
    exact removeForeachGo_never_stop_events hns hcb c.ll.reverse
  · obtain ⟨m2, hm2⟩ := removeForeach_cache_isSome hc fn
    have hlen : (c.removeForeach fn).1.len
        = (c.removeForeach fn).1.ll.length := by
      simp [Cache.len, hm2]
    rw [hlen, hfr, hllf]

/-- A concrete state for the C9 witness: `New(0)` with callback set, then
`Add 1 10`, `Add 2 20`, `Add 3 30`. -/
def c9w : Cache Nat Nat :=
  { ((((new 0).add 1 10).1.add 2 20).1.add 3 30).1 with onEvicted := true }

/-- The C9 witness visitor: never stop, remove every key other than 3. -/
def fn9w : Nat → Nat → Bool × Bool := fun k _ => (false, k != 3)

/-- Witness for C9: on `c9w`, `fn9w` removes the entries keyed 1 and 2,
keeping 3, with callbacks in oldest-to-newest order. -/
theorem removeForeach_full_pass_spec_witness :
    (c9w.removeForeach fn9w).1.ll
        = c9w.ll.filter (fun e => !(fn9w e.2.1 e.2.2).2) ∧
      (c9w.removeForeach fn9w).2
        = (c9w.ll.reverse.filter (fun e => (fn9w e.2.1 e.2.2).2)).map
            (fun e => (e.2.1, e.2.2)) ∧
      (c9w.removeForeach fn9w).1.len
        = (c9w.ll.filter (fun e => !(fn9w e.2.1 e.2.2).2)).length := by
  apply removeForeach_full_pass_spec (m := [(1, 0), (2, 1), (3, 2)])
  · rfl
  · exact (Reachable.setOnEvicted true (Reachable.add 3 30
      (Reachable.add 2 20 (Reachable.add 1 10 (Reachable.new 0))))).inv
  · rfl
  · intro k v
    rfl

end LRU
